import Mathlib

/-!
Shallow embedding of the `pipebuf` crate's buffer engine (`src/buf.rs`,
`src/wr.rs`, `src/rd.rs`) and proofs about its specification.

Modelling conventions:

* Machine integers (`usize`) are modelled as `Nat`; the only place the code
  relies on wrapping arithmetic is `tripwire`, where the wrapping add is
  modelled explicitly as `% USIZE` with `USIZE = 2 ^ 64`.
* The backing `Vec<T>` is modelled as a `List Nat` whose length is both the
  vector's length and its capacity (exact allocation: `Vec::reserve` is
  modelled as allocating exactly the requested capacity, with no rounding up).
  The crate itself documents that any rounding up by `Vec` merely enlarges
  capacities, so the exact-allocation model is the canonical one.
* Element type `T` is instantiated at `Nat` (bytes); no claim depends on
  genericity.
* Panics (the panic calls, out-of-range slice indexing) are modelled by `Option`:
  `none` is a panic. `debug_assert!` is compiled out in release builds and is
  modelled as a no-op (its condition is discussed where relevant).
* The `static` (no-alloc) configuration is not modelled; the `std`/`alloc`
  configuration of `try_make_space` is the one embedded.
-/

/-- End-of-file and "push" state of the buffer (`PBufState` in `buf.rs`). -/
inductive PBufState where
  | Open
  | Push
  | Closing
  | Closed
  | Aborting
  | Aborted
deriving DecidableEq, Repr

/-- The discriminant values assigned in `buf.rs` (`Open = 0`, `Push = 1`,
`Closing = 3`, `Closed = 2`, `Aborting = 5`, `Aborted = 4`). -/
def PBufState.ord : PBufState → Nat
  | .Open => 0
  | .Push => 1
  | .Closing => 3
  | .Closed => 2
  | .Aborting => 5
  | .Aborted => 4

/-- The pipe buffer (`PipeBuf` in `buf.rs`), with the `std`/`alloc` fields. -/
structure PipeBuf where
  data : List Nat
  rd : Nat
  wr : Nat
  state : PBufState
  max_capacity : Nat
deriving DecidableEq, Repr

/-- `usize` modulus for the wrapping add in `tripwire`. -/
def USIZE : Nat := 2 ^ 64

/-- `PipeBuf::new(min_capacity, max_capacity)`: `vec![T::default(); min]`
then `max_capacity = max_capacity.max(data.capacity())`. -/
def PipeBuf.new (min_capacity max_capacity : Nat) : PipeBuf :=
  { data := List.replicate min_capacity 0
    rd := 0
    wr := 0
    state := .Open
    max_capacity := Nat.max max_capacity min_capacity }

/-- `PipeBuf::fixed(capacity)` = `new(capacity, capacity)`. -/
def PipeBuf.fixed (capacity : Nat) : PipeBuf :=
  PipeBuf.new capacity capacity

/-- `PipeBuf::reset`. -/
def PipeBuf.reset (pb : PipeBuf) : PipeBuf :=
  { pb with rd := 0, wr := 0, state := .Open }

/-- `PipeBuf::capacity` (the `std`/`alloc` branch returns `max_capacity`). -/
def PipeBuf.capacity (pb : PipeBuf) : Nat :=
  pb.max_capacity

/-- `PipeBuf::tripwire`: `(wr - rd).wrapping_add(state as usize)`. -/
def PipeBuf.tripwire (pb : PipeBuf) : Nat :=
  ((pb.wr - pb.rd) + pb.state.ord) % USIZE

/-- `PBufWr::is_eof` / `PBufRd::is_eof`: any state other than `Open`/`Push`. -/
def PipeBuf.is_eof (pb : PipeBuf) : Bool :=
  match pb.state with
  | .Open => false
  | .Push => false
  | _ => true

/-- `PBufRd::is_aborted`: state `Aborting` or `Aborted`. -/
def PipeBuf.is_aborted (pb : PipeBuf) : Bool :=
  match pb.state with
  | .Aborting => true
  | .Aborted => true
  | _ => false

/-- `PipeBuf::is_done`. -/
def PipeBuf.is_done (pb : PipeBuf) : Bool :=
  match pb.state with
  | .Aborted => true
  | .Closed => pb.rd == pb.wr
  | _ => false

/-- The unread region `data[rd..wr]`, as returned by `PBufRd::data`. -/
def PipeBuf.contents (pb : PipeBuf) : List Nat :=
  (pb.data.drop pb.rd).take (pb.wr - pb.rd)

/-- `PBufRd::len`: `wr - rd`. -/
def PipeBuf.len (pb : PipeBuf) : Nat :=
  pb.wr - pb.rd

/-- `PBufWr::free`: `capacity() - (wr - rd)`. -/
def PipeBuf.free (pb : PipeBuf) : Nat :=
  pb.capacity - (pb.wr - pb.rd)

/-- `slice.copy_within(rd..wr, 0)`: the elements at positions `[rd, wr)` are
copied to positions `[0, wr - rd)`; all later positions keep their values. -/
def copyWithin (l : List Nat) (rd wr : Nat) : List Nat :=
  ((l.drop rd).take (wr - rd)) ++ l.drop (wr - rd)

/-- The compaction step at the top of `PBufWr::try_make_space`: if `rd > 0`,
copy the unread region down to offset 0 and shift the cursors. -/
def PipeBuf.compact (pb : PipeBuf) : PipeBuf :=
  if pb.rd > 0 then
    { pb with
      data := copyWithin pb.data pb.rd pb.wr
      wr := pb.wr - pb.rd
      rd := 0 }
  else pb

/-- `PBufWr::try_make_space(reserve)` (the `std`/`alloc` configuration):
compact, then grow if the tail is still too small, up to `max_capacity`.
Growth allocates exactly `req_len = min (max (wr + reserve) (2 * reserve))
max_capacity` elements (exact-allocation `Vec` model), and refreshes
`max_capacity` with the new capacity. -/
def try_make_space (pb : PipeBuf) (reserve : Nat) : Bool × PipeBuf :=
  let pb := pb.compact
  if pb.wr + reserve > pb.data.length then
    if pb.data.length ≥ pb.max_capacity then
      (false, pb)
    else
      let req_len := Nat.min (Nat.max (pb.wr + reserve) (reserve * 2)) pb.max_capacity
      (true,
        { pb with
          data := pb.data ++ List.replicate (req_len - pb.data.length) 0
          max_capacity := Nat.max pb.max_capacity req_len })
  else
    (true, pb)

/-- `PBufWr::space(reserve)`.  `some (true, pb')` models a `Some` window being
returned over the (possibly compacted/grown) buffer `pb'`; `some (false, pb')`
models a `None` return (the buffer may still have been compacted); `none`
models the panic of the slice indexing `data[wr..wr + reserve]` when
`try_make_space` reports success without having made `reserve` bytes of tail
room. -/
def space (pb : PipeBuf) (reserve : Nat) : Option (Bool × PipeBuf) :=
  if pb.wr + reserve > pb.data.length then
    match try_make_space pb reserve with
    | (false, pb') => some (false, pb')
    | (true, pb') =>
      if pb'.wr + reserve ≤ pb'.data.length then some (true, pb') else none
  else
    some (true, pb)

/-- Writing `bytes` into the window returned by a `space*` call: the window
starts at offset `wr`, so the bytes land at positions `[wr, wr + |bytes|)`. -/
def fillAt (l : List Nat) (pos : Nat) (bytes : List Nat) : List Nat :=
  l.take pos ++ bytes ++ l.drop (pos + bytes.length)

/-- `PBufWr::commit(len)`: panics (`none`) if EOF was already signalled or if
`wr + len` runs past the end of the storage; otherwise advances `wr`. -/
def commit (pb : PipeBuf) (len : Nat) : Option PipeBuf :=
  if pb.is_eof then none
  else if pb.wr + len > pb.data.length then none
  else some { pb with wr := pb.wr + len }

/-- `PBufWr::append(data)`: reserve space, copy the bytes in, commit.
`some (b, pb')` is a normal return of `b`; `none` is a panic. -/
def append (pb : PipeBuf) (bytes : List Nat) : Option (Bool × PipeBuf) :=
  match space pb bytes.length with
  | none => none
  | some (false, pb') => some (false, pb')
  | some (true, pb') =>
    let pb2 := { pb' with data := fillAt pb'.data pb'.wr bytes }
    match commit pb2 bytes.length with
    | none => none
    | some pb3 => some (true, pb3)

/-- `PBufRd::consume(len)`: panics (`none`) if `rd + len > wr`, else advances
`rd`.  (Note: the source does not reset the cursors to 0 on emptiness.) -/
def consume (pb : PipeBuf) (len : Nat) : Option PipeBuf :=
  if pb.rd + len > pb.wr then none
  else some { pb with rd := pb.rd + len }

/-- `PBufWr::push`: set `Push` only from `Open`. -/
def push (pb : PipeBuf) : PipeBuf :=
  if pb.state = .Open then { pb with state := .Push } else pb

/-- `PBufWr::close`: from a non-EOF state moves to `Closing` and returns
`true`; otherwise returns `false` unchanged. -/
def close (pb : PipeBuf) : Bool × PipeBuf :=
  if pb.is_eof then (false, pb) else (true, { pb with state := .Closing })

/-- `PBufWr::abort`: from a non-EOF state moves to `Aborting` and returns
`true`; otherwise returns `false` unchanged. -/
def abort (pb : PipeBuf) : Bool × PipeBuf :=
  if pb.is_eof then (false, pb) else (true, { pb with state := .Aborting })

/-- `PBufRd::consume_push`: `Push → Open` returning `true`, else `false`. -/
def consume_push (pb : PipeBuf) : Bool × PipeBuf :=
  if pb.state = .Push then (true, { pb with state := .Open }) else (false, pb)

/-- `PBufRd::consume_eof`: `Closing → Closed`, `Aborting → Aborted`, each
returning `true`; anything else returns `false` unchanged. -/
def consume_eof (pb : PipeBuf) : Bool × PipeBuf :=
  match pb.state with
  | .Closing => (true, { pb with state := .Closed })
  | .Aborting => (true, { pb with state := .Aborted })
  | _ => (false, pb)

/-- `PipeBuf::set_push`. -/
def set_push (pb : PipeBuf) (p : Bool) : PipeBuf :=
  match pb.state with
  | .Open => { pb with state := if p then .Push else .Open }
  | .Push => { pb with state := if p then .Push else .Open }
  | _ => pb

/-- `PBufWr::space_upto(limit)`: clamp the request to `free()`, compact/grow
only when the tail is too small, then return a window of exactly the clamped
size (`none` models an impossible out-of-range slice panic). -/
def space_upto (pb : PipeBuf) (limit : Nat) : Option (Nat × PipeBuf) :=
  let lim := Nat.min limit pb.free
  let pb' := if pb.wr + lim > pb.data.length then (try_make_space pb lim).2 else pb
  if pb'.wr + lim ≤ pb'.data.length then some (lim, pb') else none

/-- `PBufWr::space_all()`: reserve all of `free()`, compacting/growing if
needed, and return the whole tail `data[wr..]` (`none` models the slice panic
when `wr` exceeds the storage length). -/
def space_all (pb : PipeBuf) : Option PipeBuf :=
  let reserve := pb.free
  let pb' := if pb.wr + reserve > pb.data.length then (try_make_space pb reserve).2 else pb
  if pb'.wr ≤ pb'.data.length then some pb' else none

/-- `PBufRd::forward(dest)` (`rd.rs`): no-op when the destination has signalled
EOF; otherwise copy the whole unread region into space reserved on `dest`,
commit and consume it, and transfer any pending push/EOF.  A failed space
reservation is modelled as `none` (the source applies a slice-copy to the
reservation without a fallback path). -/
def forward (src dest : PipeBuf) : Option (PipeBuf × PipeBuf) :=
  if dest.is_eof then some (src, dest)
  else
    let bytes := src.contents
    let len := bytes.length
    match space dest len with
    | none => none
    | some (false, _) => none
    | some (true, d1) =>
      let d2 := { d1 with data := fillAt d1.data d1.wr bytes }
      match commit d2 len with
      | none => none
      | some d3 =>
        match consume src len with
        | none => none
        | some s1 =>
          let pp := consume_push s1
          let d4 := if pp.1 then push d3 else d3
          let pe := consume_eof pp.2
          let d5 :=
            if pe.1 then
              if pe.2.is_aborted then (abort d4).2 else (close d4).2
            else d4
          some (pe.2, d5)

/-- Well-formedness of a buffer: the cursor ordering, the cursors staying
inside the storage, and the storage staying within the logical capacity.
Every buffer reachable from a constructor satisfies this. -/
def PipeBuf.Valid (pb : PipeBuf) : Prop :=
  pb.rd ≤ pb.wr ∧ pb.wr ≤ pb.data.length ∧ pb.data.length ≤ pb.max_capacity

instance (pb : PipeBuf) : Decidable pb.Valid := by
  unfold PipeBuf.Valid; infer_instance

/-- A producer/consumer step for the round-trip property: either append a
chunk of bytes, or read the first `n` unread bytes and consume them. -/
inductive WOp where
  | append (bytes : List Nat)
  | consume (n : Nat)
deriving DecidableEq, Repr

/-- The full input fed to the buffer by a trace: the appended chunks,
concatenated in order. -/
def opsInput : List WOp → List Nat
  | [] => []
  | WOp.append bs :: rest => bs ++ opsInput rest
  | WOp.consume _ :: rest => opsInput rest

/-- Run a round-trip trace.  `out` accumulates the bytes read out by the
consume steps (each consume first reads `data()[..n]`, then consumes `n`).
`none` when an append fails or does not fit, or a consume is out of range. -/
def runOps : PipeBuf → List Nat → List WOp → Option (PipeBuf × List Nat)
  | pb, out, [] => some (pb, out)
  | pb, out, WOp.append bs :: rest =>
    match append pb bs with
    | some (true, pb') => runOps pb' out rest
    | _ => none
  | pb, out, WOp.consume n :: rest =>
    match consume pb n with
    | some pb' => runOps pb' (out ++ pb.contents.take n) rest
    | none => none

/-- One public operation on a `PipeBuf`, for stating properties over arbitrary
operation sequences. -/
inductive Op where
  | append (bytes : List Nat)
  | space (n : Nat)
  | spaceUpto (n : Nat)
  | spaceAll
  | commit (n : Nat)
  | consume (n : Nat)
  | push
  | close
  | abort
  | consumePush
  | consumeEof
  | reset
deriving DecidableEq, Repr

/-- Apply one operation; `none` models a panic. -/
def applyOp : Op → PipeBuf → Option PipeBuf
  | .append bs, pb => (append pb bs).map (·.2)
  | .space n, pb => (space pb n).map (·.2)
  | .spaceUpto n, pb => (space_upto pb n).map (·.2)
  | .spaceAll, pb => space_all pb
  | .commit n, pb => commit pb n
  | .consume n, pb => consume pb n
  | .push, pb => some (push pb)
  | .close, pb => some (close pb).2
  | .abort, pb => some (abort pb).2
  | .consumePush, pb => some (consume_push pb).2
  | .consumeEof, pb => some (consume_eof pb).2
  | .reset, pb => some pb.reset

/-- Run a sequence of operations, stopping at a panic. -/
def runTrace : PipeBuf → List Op → Option PipeBuf
  | pb, [] => some pb
  | pb, op :: rest =>
    match applyOp op pb with
    | some pb' => runTrace pb' rest
    | none => none

/-- A buffer whose producer has signalled a normal EOF not yet consumed. -/
def pbClosing : PipeBuf :=
  { data := [], rd := 0, wr := 0, state := .Closing, max_capacity := 0 }

/-- A consumed-EOF buffer still holding two unread bytes. -/
def pbClosed2 : PipeBuf :=
  { data := [7, 8], rd := 0, wr := 2, state := .Closed, max_capacity := 2 }

/-- A one-byte buffer with a pending push. -/
def pbPush1 : PipeBuf :=
  { data := [1], rd := 0, wr := 1, state := .Push, max_capacity := 1 }

/-- The buffer produced by the trace append [1,2]; consume 1; append [3,4]
on a fixed three-byte buffer (the second append forces compaction). -/
def pbTraceEnd : PipeBuf :=
  { data := [2, 3, 4], rd := 0, wr := 3, state := .Open, max_capacity := 3 }

/-- The buffer produced by appending one byte to a growable `new 0 4`. -/
def pbGrown : PipeBuf :=
  { data := [9, 0], rd := 0, wr := 1, state := .Open, max_capacity := 4 }

/-- A partially-consumed buffer (one consumed byte, one unread byte). -/
def pbMid : PipeBuf :=
  { data := [5, 6, 0], rd := 1, wr := 2, state := .Open, max_capacity := 3 }

/-- A source buffer with two unread bytes and a pending close, for the
forward scenario. -/
def pbSrcFwd : PipeBuf :=
  { data := [5, 6, 0, 0], rd := 0, wr := 2, state := .Closing, max_capacity := 4 }

example : PipeBuf.fixed 3 =
    { data := [0, 0, 0], rd := 0, wr := 0, state := .Open, max_capacity := 3 } := by
  decide

example :
    append (PipeBuf.fixed 3) [7, 8] =
      some (true, { data := [7, 8, 0], rd := 0, wr := 2, state := .Open, max_capacity := 3 }) := by
  decide

/-! ### Basic lemmas about the list-level operations -/

theorem copyWithin_length_le (l : List Nat) (rd wr : Nat) :
    (copyWithin l rd wr).length ≤ l.length := by
  simp [copyWithin]
  omega

theorem copyWithin_length (l : List Nat) (rd wr : Nat) (_h1 : rd ≤ wr)
    (h2 : wr ≤ l.length) : (copyWithin l rd wr).length = l.length := by
  simp [copyWithin]
  omega

theorem copyWithin_take (l : List Nat) (rd wr : Nat) (_h1 : rd ≤ wr)
    (h2 : wr ≤ l.length) :
    (copyWithin l rd wr).take (wr - rd) = (l.drop rd).take (wr - rd) := by
  unfold copyWithin
  rw [List.take_append_of_le_length (by simp; omega), List.take_take]
  simp

theorem fillAt_length (l : List Nat) (pos : Nat) (bs : List Nat)
    (h : pos + bs.length ≤ l.length) : (fillAt l pos bs).length = l.length := by
  simp [fillAt]
  omega

theorem fillAt_drop_take (l : List Nat) (rd wr : Nat) (bs : List Nat)
    (h1 : rd ≤ wr) (h2 : wr + bs.length ≤ l.length) :
    ((fillAt l wr bs).drop rd).take (wr + bs.length - rd) =
      (l.drop rd).take (wr - rd) ++ bs := by
  have htw : (l.take wr).length = wr := by simp; omega
  have h3 : ((l.take wr).drop rd).length = wr - rd := by simp; omega
  unfold fillAt
  rw [List.append_assoc, List.drop_append_of_le_length (by omega),
    ← List.append_assoc,
    List.take_append_of_le_length (by simp; omega),
    List.take_of_length_le (by simp; omega), List.drop_take]

/-! ### Frame lemmas for compaction and space reservation -/

theorem compact_rd (pb : PipeBuf) : pb.compact.rd = 0 := by
  unfold PipeBuf.compact
  split <;> simp_all

theorem compact_wr (pb : PipeBuf) : pb.compact.wr = pb.wr - pb.rd := by
  unfold PipeBuf.compact
  split <;> simp_all

theorem compact_state (pb : PipeBuf) : pb.compact.state = pb.state := by
  unfold PipeBuf.compact
  split <;> simp

theorem compact_maxcap (pb : PipeBuf) : pb.compact.max_capacity = pb.max_capacity := by
  unfold PipeBuf.compact
  split <;> simp

theorem compact_length_le (pb : PipeBuf) :
    pb.compact.data.length ≤ pb.data.length := by
  unfold PipeBuf.compact
  split
  · exact copyWithin_length_le _ _ _
  · exact Nat.le_refl _

theorem compact_length (pb : PipeBuf) (h1 : pb.rd ≤ pb.wr) (h2 : pb.wr ≤ pb.data.length) :
    pb.compact.data.length = pb.data.length := by
  unfold PipeBuf.compact
  split
  · exact copyWithin_length _ _ _ h1 h2
  · rfl

theorem compact_contents (pb : PipeBuf) (h1 : pb.rd ≤ pb.wr) (h2 : pb.wr ≤ pb.data.length) :
    pb.compact.contents = pb.contents := by
  unfold PipeBuf.compact PipeBuf.contents
  split
  · simp only [Nat.sub_zero, List.drop_zero]
    exact copyWithin_take _ _ _ h1 h2
  · rfl

theorem compact_valid (pb : PipeBuf) (h : pb.Valid) : pb.compact.Valid := by
  obtain ⟨ha, hb, hc⟩ := h
  refine ⟨?_, ?_, ?_⟩
  · rw [compact_rd]
    exact Nat.zero_le _
  · rw [compact_wr, compact_length pb ha hb]
    omega
  · rw [compact_length pb ha hb, compact_maxcap]
    exact hc

theorem contents_extend (pb : PipeBuf) (k m : Nat) (h1 : pb.rd ≤ pb.wr)
    (h2 : pb.wr ≤ pb.data.length) :
    ({ pb with data := pb.data ++ List.replicate k 0, max_capacity := m } : PipeBuf).contents
      = pb.contents := by
  unfold PipeBuf.contents
  simp only
  rw [List.drop_append_of_le_length (by omega),
    List.take_append_of_le_length (by simp; omega)]

theorem tms_spec (pb : PipeBuf) (n : Nat) (h : pb.Valid) :
    (try_make_space pb n).2.rd = 0 ∧
    (try_make_space pb n).2.wr = pb.wr - pb.rd ∧
    (try_make_space pb n).2.state = pb.state ∧
    (try_make_space pb n).2.max_capacity = pb.max_capacity ∧
    (try_make_space pb n).2.contents = pb.contents ∧
    pb.data.length ≤ (try_make_space pb n).2.data.length ∧
    (try_make_space pb n).2.Valid ∧
    ((try_make_space pb n).1 = false → (try_make_space pb n).2 = pb.compact) := by
  obtain ⟨h1, h2, h3⟩ := h
  have hrd := compact_rd pb
  have hwr := compact_wr pb
  have hst := compact_state pb
  have hmc := compact_maxcap pb
  have hln := compact_length pb h1 h2
  have hct := compact_contents pb h1 h2
  have hcv := compact_valid pb ⟨h1, h2, h3⟩
  obtain ⟨hc1, hc2, hc3⟩ := hcv
  have hmax : Nat.max pb.compact.max_capacity
      (Nat.min (Nat.max (pb.compact.wr + n) (n * 2)) pb.compact.max_capacity)
        = pb.compact.max_capacity :=
    Nat.max_eq_left (Nat.min_le_right _ _)
  have hminR : Nat.min (Nat.max (pb.compact.wr + n) (n * 2)) pb.compact.max_capacity
      ≤ pb.compact.max_capacity := Nat.min_le_right _ _
  simp only [try_make_space]
  split
  · split
    · dsimp only
      exact ⟨hrd, hwr, hst, hmc, hct, by omega, ⟨hc1, hc2, hc3⟩, fun _ => rfl⟩
    · dsimp only
      refine ⟨hrd, hwr, hst, ?_, ?_, ?_, ?_, ?_⟩
      · rw [hmax, hmc]
      · rw [contents_extend pb.compact _ _ hc1 hc2]
        exact hct
      · simp only [List.length_append, List.length_replicate]
        omega
      · refine ⟨hc1, ?_, ?_⟩ <;>
          simp only [List.length_append, List.length_replicate, hmax] <;> omega
      · intro hcontra
        cases hcontra
  · dsimp only
    exact ⟨hrd, hwr, hst, hmc, hct, by omega, ⟨hc1, hc2, hc3⟩,
      fun hcontra => by cases hcontra⟩

theorem space_spec (pb : PipeBuf) (n : Nat) (b : Bool) (pb' : PipeBuf)
    (h : pb.Valid) (hs : space pb n = some (b, pb')) :
    pb'.Valid ∧ pb'.contents = pb.contents ∧ pb'.state = pb.state ∧
    pb'.max_capacity = pb.max_capacity ∧
    pb'.wr - pb'.rd = pb.wr - pb.rd ∧
    (b = true → pb'.wr + n ≤ pb'.data.length) := by
  obtain ⟨hr0, hw0, hs0, hm0, hc0, _, hv0, hf0⟩ := tms_spec pb n h
  unfold space at hs
  split at hs
  · revert hs
    rcases htms : try_make_space pb n with ⟨bb, pbt⟩
    rcases bb with _ | _
    · intro hs
      rw [htms] at hr0 hw0 hs0 hm0 hc0 hv0
      cases hs
      refine ⟨hv0, hc0, hs0, hm0, ?_, ?_⟩
      · rw [hr0, hw0]
        omega
      · intro hb
        cases hb
    · intro hs
      rw [htms] at hr0 hw0 hs0 hm0 hc0 hv0
      dsimp only at hs
      split at hs
      · cases hs
        refine ⟨hv0, hc0, hs0, hm0, ?_, fun _ => by omega⟩
        rw [hr0, hw0]
        omega
      · cases hs
  · cases hs
    refine ⟨h, rfl, rfl, rfl, rfl, fun _ => by omega⟩

theorem consume_spec (pb : PipeBuf) (n : Nat) (pb' : PipeBuf)
    (h : pb.Valid) (hs : consume pb n = some pb') :
    pb'.Valid ∧ n ≤ pb.wr - pb.rd ∧
    pb'.contents = pb.contents.drop n ∧
    pb'.rd = pb.rd + n ∧ pb'.wr = pb.wr ∧ pb'.state = pb.state ∧
    pb'.data = pb.data ∧ pb'.max_capacity = pb.max_capacity := by
  obtain ⟨h1, h2, h3⟩ := h
  unfold consume at hs
  split at hs
  · cases hs
  · rename_i hle
    cases hs
    refine ⟨⟨by dsimp only; omega, h2, h3⟩, by omega, ?_, rfl, rfl, rfl, rfl, rfl⟩
    unfold PipeBuf.contents
    dsimp only
    rw [← List.drop_drop, List.drop_take]
    congr 1
    omega

theorem commit_fill_spec (pb : PipeBuf) (bs : List Nat)
    (h : pb.Valid) (he : pb.is_eof = false) (hw : pb.wr + bs.length ≤ pb.data.length) :
    commit { pb with data := fillAt pb.data pb.wr bs } bs.length =
      some { pb with data := fillAt pb.data pb.wr bs, wr := pb.wr + bs.length } ∧
    ({ pb with data := fillAt pb.data pb.wr bs, wr := pb.wr + bs.length } : PipeBuf).contents
      = pb.contents ++ bs ∧
    (fillAt pb.data pb.wr bs).length = pb.data.length := by
  obtain ⟨h1, h2, h3⟩ := h
  have hfl : (fillAt pb.data pb.wr bs).length = pb.data.length := fillAt_length _ _ _ hw
  refine ⟨?_, ?_, hfl⟩
  · unfold commit
    have : ({ pb with data := fillAt pb.data pb.wr bs } : PipeBuf).is_eof = false := by
      unfold PipeBuf.is_eof at he ⊢
      exact he
    rw [this]
    simp only [Bool.false_eq_true, if_false, hfl]
    split
    · omega
    · rfl
  · unfold PipeBuf.contents
    dsimp only
    have := fillAt_drop_take pb.data pb.rd pb.wr bs h1 hw
    rw [show pb.wr + bs.length - pb.rd = pb.wr + bs.length - pb.rd from rfl] at this
    exact this

theorem append_spec (pb : PipeBuf) (bs : List Nat) (pb' : PipeBuf)
    (h : pb.Valid) (ha : append pb bs = some (true, pb')) :
    pb'.Valid ∧ pb'.contents = pb.contents ++ bs ∧ pb'.state = pb.state ∧
    pb'.max_capacity = pb.max_capacity ∧
    pb'.wr - pb'.rd = (pb.wr - pb.rd) + bs.length := by
  unfold append at ha
  revert ha
  rcases hsp : space pb bs.length with _ | ⟨bb, pbs⟩
  · intro ha
    cases ha
  · rcases bb with _ | _
    · intro ha
      cases ha
    · intro ha
      obtain ⟨hv, hc, hst, hm, hd, hsz⟩ := space_spec pb bs.length true pbs h hsp
      have hw : pbs.wr + bs.length ≤ pbs.data.length := hsz rfl
      have he : pbs.is_eof = false := by
        dsimp only at ha
        revert ha
        unfold commit
        split
        · intro ha
          cases ha
        · rename_i heof
          intro _
          simp only [PipeBuf.is_eof] at heof ⊢
          revert heof
          split <;> simp_all
      obtain ⟨hcm, hcc, hcl⟩ := commit_fill_spec pbs bs hv he hw
      dsimp only at ha
      rw [hcm] at ha
      cases ha
      obtain ⟨hv1, hv2, hv3⟩ := hv
      refine ⟨⟨by dsimp only; omega, ?_, ?_⟩, ?_, hst, hm, ?_⟩
      · dsimp only
        rw [hcl]
        omega
      · dsimp only
        rw [hcl]
        exact hv3
      · rw [hcc, hc]
      · dsimp only
        omega

theorem push_frame (pb : PipeBuf) :
    (push pb).data = pb.data ∧ (push pb).rd = pb.rd ∧ (push pb).wr = pb.wr ∧
    (push pb).max_capacity = pb.max_capacity := by
  unfold push
  split <;> exact ⟨rfl, rfl, rfl, rfl⟩

theorem close_frame (pb : PipeBuf) :
    (close pb).2.data = pb.data ∧ (close pb).2.rd = pb.rd ∧ (close pb).2.wr = pb.wr ∧
    (close pb).2.max_capacity = pb.max_capacity := by
  unfold close
  split <;> exact ⟨rfl, rfl, rfl, rfl⟩

theorem abort_frame (pb : PipeBuf) :
    (abort pb).2.data = pb.data ∧ (abort pb).2.rd = pb.rd ∧ (abort pb).2.wr = pb.wr ∧
    (abort pb).2.max_capacity = pb.max_capacity := by
  unfold abort
  split <;> exact ⟨rfl, rfl, rfl, rfl⟩

theorem consume_push_frame (pb : PipeBuf) :
    (consume_push pb).2.data = pb.data ∧ (consume_push pb).2.rd = pb.rd ∧
    (consume_push pb).2.wr = pb.wr ∧
    (consume_push pb).2.max_capacity = pb.max_capacity := by
  unfold consume_push
  split <;> exact ⟨rfl, rfl, rfl, rfl⟩

theorem consume_eof_frame (pb : PipeBuf) :
    (consume_eof pb).2.data = pb.data ∧ (consume_eof pb).2.rd = pb.rd ∧
    (consume_eof pb).2.wr = pb.wr ∧
    (consume_eof pb).2.max_capacity = pb.max_capacity := by
  unfold consume_eof
  split <;> exact ⟨rfl, rfl, rfl, rfl⟩

theorem valid_of_frame (pb pb' : PipeBuf) (h : pb.Valid) (hd : pb'.data = pb.data)
    (hr : pb'.rd = pb.rd) (hw : pb'.wr = pb.wr) (hm : pb'.max_capacity = pb.max_capacity) :
    pb'.Valid := by
  obtain ⟨h1, h2, h3⟩ := h
  exact ⟨by omega, by rw [hw, hd]; exact h2, by rw [hd, hm]; exact h3⟩

theorem contents_of_frame (pb pb' : PipeBuf) (hd : pb'.data = pb.data)
    (hr : pb'.rd = pb.rd) (hw : pb'.wr = pb.wr) : pb'.contents = pb.contents := by
  unfold PipeBuf.contents
  rw [hd, hr, hw]

theorem commit_some (pb : PipeBuf) (n : Nat) (pb' : PipeBuf) (hs : commit pb n = some pb') :
    pb' = { pb with wr := pb.wr + n } ∧ pb.wr + n ≤ pb.data.length ∧
    pb.is_eof = false := by
  unfold commit at hs
  split at hs
  · cases hs
  · split at hs
    · cases hs
    · cases hs
      rename_i he hle
      exact ⟨rfl, by omega, by simp_all⟩

theorem space_upto_spec (pb : PipeBuf) (lim k : Nat) (pb' : PipeBuf)
    (h : pb.Valid) (hs : space_upto pb lim = some (k, pb')) :
    pb'.Valid ∧ pb'.contents = pb.contents ∧ pb'.state = pb.state ∧
    pb'.max_capacity = pb.max_capacity ∧ pb'.wr - pb'.rd = pb.wr - pb.rd := by
  obtain ⟨hr0, hw0, hs0, hm0, hc0, _, hv0, _⟩ :=
    tms_spec pb (Nat.min lim pb.free) h
  unfold space_upto at hs
  dsimp only at hs
  split at hs <;> split at hs <;> cases hs
  · exact ⟨hv0, hc0, hs0, hm0, by rw [hr0, hw0]; omega⟩
  · exact ⟨h, rfl, rfl, rfl, rfl⟩

theorem space_all_spec (pb : PipeBuf) (pb' : PipeBuf)
    (h : pb.Valid) (hs : space_all pb = some pb') :
    pb'.Valid ∧ pb'.contents = pb.contents ∧ pb'.state = pb.state ∧
    pb'.max_capacity = pb.max_capacity ∧ pb'.wr - pb'.rd = pb.wr - pb.rd := by
  obtain ⟨hr0, hw0, hs0, hm0, hc0, _, hv0, _⟩ := tms_spec pb pb.free h
  unfold space_all at hs
  dsimp only at hs
  split at hs <;> split at hs <;> cases hs
  · exact ⟨hv0, hc0, hs0, hm0, by rw [hr0, hw0]; omega⟩
  · exact ⟨h, rfl, rfl, rfl, rfl⟩

theorem append_false (pb : PipeBuf) (bs : List Nat) (pb' : PipeBuf)
    (ha : append pb bs = some (false, pb')) :
    space pb bs.length = some (false, pb') := by
  unfold append at ha
  revert ha
  rcases hsp : space pb bs.length with _ | ⟨bb, pbs⟩
  · intro ha
    cases ha
  · rcases bb with _ | _
    · intro ha
      cases ha
      rfl
    · dsimp only
      rcases hcm : commit { pbs with data := fillAt pbs.data pbs.wr bs } bs.length with
        _ | pb3
      · intro ha
        cases ha
      · intro ha
        simp at ha

theorem applyOp_valid (op : Op) (pb pb' : PipeBuf) (h : pb.Valid)
    (ha : applyOp op pb = some pb') :
    pb'.Valid ∧ pb'.max_capacity = pb.max_capacity := by
  cases op with
  | append bs =>
    simp only [applyOp] at ha
    rcases happ : append pb bs with _ | ⟨bb, pbx⟩ <;> rw [happ] at ha <;> simp at ha
    subst ha
    rcases bb with _ | _
    · obtain ⟨hv, _, _, hm, _, _⟩ :=
        space_spec pb bs.length false pbx h (append_false pb bs pbx happ)
      exact ⟨hv, hm⟩
    · obtain ⟨hv, _, _, hm, _⟩ := append_spec pb bs pbx h happ
      exact ⟨hv, hm⟩
  | space n =>
    simp only [applyOp] at ha
    rcases hsp : space pb n with _ | ⟨bb, pbx⟩ <;> rw [hsp] at ha <;> simp at ha
    subst ha
    obtain ⟨hv, _, _, hm, _, _⟩ := space_spec pb n bb pbx h hsp
    exact ⟨hv, hm⟩
  | spaceUpto n =>
    simp only [applyOp] at ha
    rcases hsp : space_upto pb n with _ | ⟨k, pbx⟩ <;> rw [hsp] at ha <;> simp at ha
    subst ha
    obtain ⟨hv, _, _, hm, _⟩ := space_upto_spec pb n k pbx h hsp
    exact ⟨hv, hm⟩
  | spaceAll =>
    simp only [applyOp] at ha
    obtain ⟨hv, _, _, hm, _⟩ := space_all_spec pb pb' h ha
    exact ⟨hv, hm⟩
  | commit n =>
    obtain ⟨heq, hle, _⟩ := commit_some pb n pb' ha
    obtain ⟨h1, h2, h3⟩ := h
    subst heq
    exact ⟨⟨by dsimp only; omega, by dsimp only; omega, h3⟩, rfl⟩
  | consume n =>
    obtain ⟨hv, _, _, _, _, _, _, hm⟩ := consume_spec pb n pb' h ha
    exact ⟨hv, hm⟩
  | push =>
    cases ha
    obtain ⟨hd, hr, hw, hm⟩ := push_frame pb
    exact ⟨valid_of_frame pb _ h hd hr hw hm, hm⟩
  | close =>
    cases ha
    obtain ⟨hd, hr, hw, hm⟩ := close_frame pb
    exact ⟨valid_of_frame pb _ h hd hr hw hm, hm⟩
  | abort =>
    cases ha
    obtain ⟨hd, hr, hw, hm⟩ := abort_frame pb
    exact ⟨valid_of_frame pb _ h hd hr hw hm, hm⟩
  | consumePush =>
    cases ha
    obtain ⟨hd, hr, hw, hm⟩ := consume_push_frame pb
    exact ⟨valid_of_frame pb _ h hd hr hw hm, hm⟩
  | consumeEof =>
    cases ha
    obtain ⟨hd, hr, hw, hm⟩ := consume_eof_frame pb
    exact ⟨valid_of_frame pb _ h hd hr hw hm, hm⟩
  | reset =>
    cases ha
    obtain ⟨_, _, h3⟩ := h
    exact ⟨⟨Nat.le_refl _, Nat.zero_le _, h3⟩, rfl⟩

theorem runTrace_valid (ops : List Op) (pb pb' : PipeBuf) (h : pb.Valid)
    (ht : runTrace pb ops = some pb') :
    pb'.Valid ∧ pb'.max_capacity = pb.max_capacity := by
  induction ops generalizing pb with
  | nil =>
    cases ht
    exact ⟨h, rfl⟩
  | cons op rest ih =>
    revert ht
    unfold runTrace
    rcases ha : applyOp op pb with _ | pbx
    · intro ht
      cases ht
    · intro ht
      obtain ⟨hv, hm⟩ := applyOp_valid op pb pbx h ha
      obtain ⟨hv', hm'⟩ := ih pbx hv ht
      exact ⟨hv', by rw [hm', hm]⟩

theorem runOps_spec (ops : List WOp) (pb : PipeBuf) (out : List Nat)
    (pb' : PipeBuf) (out' : List Nat) (h : pb.Valid)
    (ht : runOps pb out ops = some (pb', out')) :
    pb'.Valid ∧ out' ++ pb'.contents = (out ++ pb.contents) ++ opsInput ops := by
  induction ops generalizing pb out with
  | nil =>
    cases ht
    exact ⟨h, by simp [opsInput]⟩
  | cons op rest ih =>
    cases op with
    | append bs =>
      revert ht
      unfold runOps
      rcases happ : append pb bs with _ | ⟨bb, pbx⟩
      · intro ht
        cases ht
      · rcases bb with _ | _
        · intro ht
          cases ht
        · intro ht
          obtain ⟨hv, hc, _, _, _⟩ := append_spec pb bs pbx h happ
          obtain ⟨hv', heq⟩ := ih pbx out hv ht
          refine ⟨hv', ?_⟩
          rw [heq, hc]
          simp [opsInput]
    | consume n =>
      revert ht
      unfold runOps
      rcases hcn : consume pb n with _ | pbx
      · intro ht
        cases ht
      · intro ht
        obtain ⟨hv, hle, hc, _, _, _, _, _⟩ := consume_spec pb n pbx h hcn
        obtain ⟨hv', heq⟩ := ih pbx (out ++ pb.contents.take n) hv ht
        refine ⟨hv', ?_⟩
        rw [heq, hc]
        simp only [opsInput, List.append_assoc]
        congr 1
        rw [← List.append_assoc, List.take_append_drop]

/-! ### Claim theorems -/

/-- C1: the claim states that after every public operation, `rd <= wr` holds
and that whenever an operation leaves the buffer logically empty (`rd == wr`)
both cursors equal 0.  The second half fails on the code: `PBufRd::consume`
advances `rd` without the documented reset to zero when `rd` reaches `wr`.
Appending one byte to a fresh fixed-capacity buffer and consuming it leaves
`rd = wr = 1`, contradicting the struct's own invariant comment
(`assert!(.rd < .wr || .wr == 0)`) and the `debug_assert` in
`try_make_space`. -/
theorem c1_consume_leaves_nonzero_cursors :
    ((append (PipeBuf.fixed 4) [55]).bind fun r => consume r.2 1).map
      (fun pb => (pb.rd, pb.wr)) = some (1, 1) := by
  decide

/-- C4: `close()` and `abort()` on a buffer already in an EOF-bearing state
(`Closing`, `Closed`, `Aborting`, `Aborted`) are no-ops returning `false`;
after a successful `close()` the state is `Closing` and a later `abort()`
cannot change it, and symmetrically for a successful `abort()`. -/
theorem c4_first_eof_kind_sticky (pb : PipeBuf) :
    ((pb.state = PBufState.Closing ∨ pb.state = PBufState.Closed ∨
        pb.state = PBufState.Aborting ∨ pb.state = PBufState.Aborted) →
      close pb = (false, pb) ∧ abort pb = (false, pb)) ∧
    (∀ pb', close pb = (true, pb') →
      pb'.state = PBufState.Closing ∧ abort pb' = (false, pb')) ∧
    (∀ pb', abort pb = (true, pb') →
      pb'.state = PBufState.Aborting ∧ close pb' = (false, pb')) := by
  obtain ⟨d, r, w, st, m⟩ := pb
  cases st <;> simp [close, abort, PipeBuf.is_eof]

/-- C4 witness: instantiated on a buffer in the `Closing` state. -/
theorem c4_witness :
    ((pbClosing.state = PBufState.Closing ∨ pbClosing.state = PBufState.Closed ∨
        pbClosing.state = PBufState.Aborting ∨
        pbClosing.state = PBufState.Aborted) →
      close pbClosing = (false, pbClosing) ∧
        abort pbClosing = (false, pbClosing)) ∧
    (∀ pb', close pbClosing = (true, pb') →
      pb'.state = PBufState.Closing ∧ abort pb' = (false, pb')) ∧
    (∀ pb', abort pbClosing = (true, pb') →
      pb'.state = PBufState.Aborting ∧ close pb' = (false, pb')) :=
  c4_first_eof_kind_sticky pbClosing

/-- C5 counterexample: `commit` does not panic whenever `n` exceeds the space
actually reserved: after reserving a single byte with `space(1)` on a fresh
four-byte buffer, `commit(2)` succeeds and advances `wr` by 2, because
`commit` only checks the storage tail, not the reservation. -/
theorem c5_commit_beyond_reservation_no_panic :
    space (PipeBuf.fixed 4) 1 = some (true, PipeBuf.fixed 4) ∧
    commit (PipeBuf.fixed 4) 2 = some { PipeBuf.fixed 4 with wr := 2 } := by
  decide

/-- C5 (amended): `commit(n)` panics exactly when EOF has already been
signalled or when `n` exceeds the free tail of the storage `data.len() - wr`
(the largest window a `space*` call can reserve) — committing more than was
actually reserved but within that tail does not panic; under the
complementary preconditions it advances `wr` by `n`.  `consume(n)` panics
exactly when `n` exceeds the unread length `wr - rd`, and otherwise advances
`rd` by `n`. -/
theorem c5_commit_consume_contract (pb : PipeBuf) (n : Nat)
    (h1 : pb.rd ≤ pb.wr) (h2 : pb.wr ≤ pb.data.length) :
    (commit pb n = none ↔ pb.is_eof = true ∨ pb.data.length - pb.wr < n) ∧
    (pb.is_eof = false → n ≤ pb.data.length - pb.wr →
      commit pb n = some { pb with wr := pb.wr + n }) ∧
    (consume pb n = none ↔ pb.wr - pb.rd < n) ∧
    (n ≤ pb.wr - pb.rd → consume pb n = some { pb with rd := pb.rd + n }) := by
  refine ⟨?_, ?_, ?_, ?_⟩
  · unfold commit
    split
    · rename_i he
      simp [he]
    · rename_i he
      split
      · rename_i hgt
        constructor
        · intro _
          right
          omega
        · intro _
          rfl
      · rename_i hle
        constructor
        · intro hx
          cases hx
        · intro hx
          rcases hx with hx | hx
          · exact absurd hx he
          · exact absurd hx (by omega)
  · intro he hle
    unfold commit
    rw [he]
    simp only [Bool.false_eq_true, if_false]
    rw [if_neg (by omega)]
  · unfold consume
    split
    · rename_i hgt
      constructor
      · intro _
        omega
      · intro _
        rfl
    · rename_i hle
      constructor
      · intro hx
        cases hx
      · intro hlt
        exact absurd hlt (by omega)
  · intro hle
    unfold consume
    rw [if_neg (by omega)]

/-- C5 witness: instantiated on a fresh two-byte fixed buffer with `n = 1`. -/
theorem c5_witness :
    (commit (PipeBuf.fixed 2) 1 = none ↔ (PipeBuf.fixed 2).is_eof = true ∨
      (PipeBuf.fixed 2).data.length - (PipeBuf.fixed 2).wr < 1) ∧
    ((PipeBuf.fixed 2).is_eof = false →
      1 ≤ (PipeBuf.fixed 2).data.length - (PipeBuf.fixed 2).wr →
      commit (PipeBuf.fixed 2) 1 =
        some { PipeBuf.fixed 2 with wr := (PipeBuf.fixed 2).wr + 1 }) ∧
    (consume (PipeBuf.fixed 2) 1 = none ↔
      (PipeBuf.fixed 2).wr - (PipeBuf.fixed 2).rd < 1) ∧
    (1 ≤ (PipeBuf.fixed 2).wr - (PipeBuf.fixed 2).rd →
      consume (PipeBuf.fixed 2) 1 =
        some { PipeBuf.fixed 2 with rd := (PipeBuf.fixed 2).rd + 1 }) :=
  c5_commit_consume_contract (PipeBuf.fixed 2) 1 (by decide) (by decide)

/-- C7: `is_done()` returns `true` exactly when the state is `Aborted`, or the
state is `Closed` with the unread region empty (`rd == wr`); in particular a
successful `close()` (state `Closing`) never has `is_done()` true yet. -/
theorem c7_is_done_exact (pb : PipeBuf) :
    (pb.is_done = true ↔ pb.state = PBufState.Aborted ∨
      (pb.state = PBufState.Closed ∧ pb.rd = pb.wr)) ∧
    (∀ pb', close pb = (true, pb') → pb'.is_done = false) := by
  obtain ⟨d, r, w, st, m⟩ := pb
  refine ⟨?_, ?_⟩
  · cases st <;> simp [PipeBuf.is_done]
  · intro pb' hc
    unfold close at hc
    split at hc
    · simp at hc
    · cases hc
      rfl

/-- C7 witness: instantiated on a closed buffer with two unread bytes. -/
theorem c7_witness :
    (pbClosed2.is_done = true ↔ pbClosed2.state = PBufState.Aborted ∨
      (pbClosed2.state = PBufState.Closed ∧ pbClosed2.rd = pbClosed2.wr)) ∧
    (∀ pb', close pbClosed2 = (true, pb') → pb'.is_done = false) :=
  c7_is_done_exact pbClosed2

/-- C8: `consume_push()` returns `true` and moves `Push` to `Open` exactly when
the state is `Push`, otherwise returns `false` unchanged; `consume_eof()`
moves `Closing` to `Closed` and `Aborting` to `Aborted` returning `true`, and
in every other state returns `false` unchanged. -/
theorem c8_consume_push_eof_exact (pb : PipeBuf) :
    (pb.state = PBufState.Push →
      consume_push pb = (true, { pb with state := PBufState.Open })) ∧
    (pb.state ≠ PBufState.Push → consume_push pb = (false, pb)) ∧
    (pb.state = PBufState.Closing →
      consume_eof pb = (true, { pb with state := PBufState.Closed })) ∧
    (pb.state = PBufState.Aborting →
      consume_eof pb = (true, { pb with state := PBufState.Aborted })) ∧
    (pb.state ≠ PBufState.Closing → pb.state ≠ PBufState.Aborting →
      consume_eof pb = (false, pb)) := by
  obtain ⟨d, r, w, st, m⟩ := pb
  cases st <;> simp [consume_push, consume_eof]

/-- C8 witness: instantiated on a buffer in the `Push` state. -/
theorem c8_witness :
    (pbPush1.state = PBufState.Push →
      consume_push pbPush1 = (true, { pbPush1 with state := PBufState.Open })) ∧
    (pbPush1.state ≠ PBufState.Push → consume_push pbPush1 = (false, pbPush1)) ∧
    (pbPush1.state = PBufState.Closing →
      consume_eof pbPush1 = (true, { pbPush1 with state := PBufState.Closed })) ∧
    (pbPush1.state = PBufState.Aborting →
      consume_eof pbPush1 = (true, { pbPush1 with state := PBufState.Aborted })) ∧
    (pbPush1.state ≠ PBufState.Closing → pbPush1.state ≠ PBufState.Aborting →
      consume_eof pbPush1 = (false, pbPush1)) :=
  c8_consume_push_eof_exact pbPush1

/-- C2: any trace of appends (each succeeding) and in-range consumes, starting
from a fresh buffer, satisfies: the bytes read out so far followed by the
bytes still unread are exactly the appended input, in order — so consuming all
remaining bytes reproduces the original sequence exactly, compaction
included. -/
theorem c2_round_trip (minc maxc : Nat) (ops : List WOp) (pb : PipeBuf)
    (out : List Nat)
    (ht : runOps (PipeBuf.new minc maxc) [] ops = some (pb, out)) :
    out ++ pb.contents = opsInput ops := by
  have hvnew : (PipeBuf.new minc maxc).Valid := by
    refine ⟨Nat.le_refl 0, Nat.zero_le _, ?_⟩
    simp only [PipeBuf.new, List.length_replicate]
    exact Nat.le_max_right maxc minc
  obtain ⟨_, heq⟩ := runOps_spec ops _ [] pb out hvnew ht
  rw [heq]
  simp [PipeBuf.new, PipeBuf.contents]

/-- C2 witness: a three-step trace on a fixed three-byte buffer whose second
append forces compaction. -/
theorem c2_witness :
    [1] ++ pbTraceEnd.contents =
      opsInput [WOp.append [1, 2], WOp.consume 1, WOp.append [3, 4]] :=
  c2_round_trip 3 3 [WOp.append [1, 2], WOp.consume 1, WOp.append [3, 4]]
    pbTraceEnd [1] (by decide)

/-- C6: on a fixed-capacity buffer (storage length equals the declared
maximum), `space(n)` returns `None` for every request larger than the maximum
capacity minus the unread length, even though it still compacts; and after any
panic-free operation sequence from a growable constructor, the storage length
never exceeds the declared maximum capacity (which itself never changes). -/
theorem c6_capacity_bounds (pb : PipeBuf) (n minc maxc : Nat) (ops : List Op)
    (pbf : PipeBuf)
    (hfix : pb.data.length = pb.max_capacity) (h1 : pb.rd ≤ pb.wr)
    (h2 : pb.wr ≤ pb.data.length)
    (hn : pb.max_capacity - (pb.wr - pb.rd) < n)
    (htr : runTrace (PipeBuf.new minc maxc) ops = some pbf) :
    space pb n = some (false, pb.compact) ∧
    pbf.data.length ≤ pbf.max_capacity ∧
    pbf.max_capacity = Nat.max maxc minc := by
  have hlenc := compact_length pb h1 h2
  have hwrc := compact_wr pb
  have hmcc := compact_maxcap pb
  have htms : try_make_space pb n = (false, pb.compact) := by
    simp only [try_make_space]
    rw [if_pos (by omega), if_pos (by omega)]
  have hsp : space pb n = some (false, pb.compact) := by
    unfold space
    rw [if_pos (by omega), htms]
  have hvnew : (PipeBuf.new minc maxc).Valid := by
    refine ⟨Nat.le_refl 0, Nat.zero_le _, ?_⟩
    simp only [PipeBuf.new, List.length_replicate]
    exact Nat.le_max_right maxc minc
  obtain ⟨⟨_, _, hql⟩, hqm⟩ := runTrace_valid ops _ pbf hvnew htr
  exact ⟨hsp, hql, by rw [hqm]; rfl⟩

/-- C6 witness: a full fixed two-byte buffer rejecting a request of 3, and a
one-step trace on a growable buffer. -/
theorem c6_witness :
    space (PipeBuf.fixed 2) 3 = some (false, (PipeBuf.fixed 2).compact) ∧
    pbGrown.data.length ≤ pbGrown.max_capacity ∧
    pbGrown.max_capacity = Nat.max 4 0 :=
  c6_capacity_bounds (PipeBuf.fixed 2) 3 0 4 [Op.append [9]] pbGrown
    (by decide) (by decide) (by decide) (by decide) (by decide)

/-- C10: the reservation operations `space(n)`, `space_upto(n)` and
`space_all()` leave the unread byte sequence, the unread length `wr - rd` and
the EOF/push state unchanged on every non-panicking return, even when they
compact or grow the buffer. -/
theorem c10_space_frame (pb : PipeBuf) (n : Nat) (h : pb.Valid) :
    (∀ b pb', space pb n = some (b, pb') →
      pb'.contents = pb.contents ∧ pb'.wr - pb'.rd = pb.wr - pb.rd ∧
      pb'.state = pb.state) ∧
    (∀ k pb', space_upto pb n = some (k, pb') →
      pb'.contents = pb.contents ∧ pb'.wr - pb'.rd = pb.wr - pb.rd ∧
      pb'.state = pb.state) ∧
    (∀ pb', space_all pb = some pb' →
      pb'.contents = pb.contents ∧ pb'.wr - pb'.rd = pb.wr - pb.rd ∧
      pb'.state = pb.state) := by
  refine ⟨fun b pb' hs => ?_, fun k pb' hs => ?_, fun pb' hs => ?_⟩
  · obtain ⟨_, hc, hst, _, hd, _⟩ := space_spec pb n b pb' h hs
    exact ⟨hc, hd, hst⟩
  · obtain ⟨_, hc, hst, _, hd⟩ := space_upto_spec pb n k pb' h hs
    exact ⟨hc, hd, hst⟩
  · obtain ⟨_, hc, hst, _, hd⟩ := space_all_spec pb pb' h hs
    exact ⟨hc, hd, hst⟩

/-- C10 witness: instantiated on a partially-consumed buffer where a request
of 2 forces compaction. -/
theorem c10_witness :
    (∀ b pb', space pbMid 2 = some (b, pb') →
      pb'.contents = pbMid.contents ∧ pb'.wr - pb'.rd = pbMid.wr - pbMid.rd ∧
      pb'.state = pbMid.state) ∧
    (∀ k pb', space_upto pbMid 2 = some (k, pb') →
      pb'.contents = pbMid.contents ∧ pb'.wr - pb'.rd = pbMid.wr - pbMid.rd ∧
      pb'.state = pbMid.state) ∧
    (∀ pb', space_all pbMid = some pb' →
      pb'.contents = pbMid.contents ∧ pb'.wr - pb'.rd = pbMid.wr - pbMid.rd ∧
      pb'.state = pbMid.state) :=
  c10_space_frame pbMid 2 (by decide)

theorem ord_le_five (s : PBufState) : s.ord ≤ 5 := by
  cases s <;> decide

theorem ordv_Open : PBufState.Open.ord = 0 := rfl

theorem ordv_Push : PBufState.Push.ord = 1 := rfl

theorem ordv_Closing : PBufState.Closing.ord = 3 := rfl

theorem ordv_Closed : PBufState.Closed.ord = 2 := rfl

theorem ordv_Aborting : PBufState.Aborting.ord = 5 := rfl

theorem ordv_Aborted : PBufState.Aborted.ord = 4 := rfl

theorem tripwire_lt (a b : PipeBuf) (ha : a.wr - a.rd + a.state.ord < USIZE)
    (hb : b.wr - b.rd + b.state.ord < USIZE)
    (hlt : a.wr - a.rd + a.state.ord < b.wr - b.rd + b.state.ord) :
    a.tripwire < b.tripwire := by
  unfold PipeBuf.tripwire
  rw [Nat.mod_eq_of_lt ha, Nat.mod_eq_of_lt hb]
  exact hlt

theorem tripwire_bound (pb : PipeBuf) (h : pb.Valid)
    (hcap : pb.max_capacity + 6 ≤ USIZE) :
    pb.wr - pb.rd + pb.state.ord < USIZE := by
  have ho := ord_le_five pb.state
  obtain ⟨h1, h2, h3⟩ := h
  omega

/-- C3 counterexample: `push()` is a producer-only operation, yet called on a
buffer already in the `Push` state it leaves the tripwire value unchanged, so
a single producer-only operation does not always strictly increase the
tripwire value. -/
theorem c3_producer_op_not_always_increasing :
    (push (PipeBuf.new 0 4)).state = PBufState.Push ∧
    (push (push (PipeBuf.new 0 4))).tripwire = (push (PipeBuf.new 0 4)).tripwire ∧
    ¬ (push (PipeBuf.new 0 4)).tripwire < (push (push (PipeBuf.new 0 4))).tripwire := by
  refine ⟨rfl, rfl, ?_⟩
  intro hlt
  exact Nat.lt_irrefl _ hlt

/-- C3 (amended): on a valid buffer, every effective producer operation — an
append of a nonempty slice returning `true`, a `push()` from the `Open`
state, or a `close()`/`abort()` returning `true` — strictly increases the
tripwire value, and every effective consumer operation — a consume of a
positive count, or a `consume_push()`/`consume_eof()` returning `true` —
strictly decreases it (all modulo the `usize` wraparound, which the capacity
bound keeps out of reach). -/
theorem c3_tripwire_direction (pb : PipeBuf) (h : pb.Valid)
    (hcap : pb.max_capacity + 6 ≤ USIZE) :
    (∀ bs pb', bs ≠ [] → append pb bs = some (true, pb') →
      pb.tripwire < pb'.tripwire) ∧
    (pb.state = PBufState.Open → pb.tripwire < (push pb).tripwire) ∧
    (∀ pb', close pb = (true, pb') → pb.tripwire < pb'.tripwire) ∧
    (∀ pb', abort pb = (true, pb') → pb.tripwire < pb'.tripwire) ∧
    (∀ n pb', 0 < n → consume pb n = some pb' → pb'.tripwire < pb.tripwire) ∧
    (∀ pb', consume_push pb = (true, pb') → pb'.tripwire < pb.tripwire) ∧
    (∀ pb', consume_eof pb = (true, pb') → pb'.tripwire < pb.tripwire) := by
  have hbound := tripwire_bound pb h hcap
  obtain ⟨h1, h2, h3⟩ := h
  refine ⟨?_, ?_, ?_, ?_, ?_, ?_, ?_⟩
  · intro bs pb' hne happ
    obtain ⟨hv, _, hst, hm, hdiff⟩ := append_spec pb bs pb' ⟨h1, h2, h3⟩ happ
    have hb' : pb'.wr - pb'.rd + pb'.state.ord < USIZE :=
      tripwire_bound pb' hv (by rw [hm]; exact hcap)
    have hlen : 0 < bs.length := List.length_pos.mpr hne
    refine tripwire_lt pb pb' hbound hb' ?_
    rw [hst, hdiff]
    omega
  · intro hst
    have hpush : push pb = { pb with state := PBufState.Push } := by
      unfold push
      rw [if_pos hst]
    rw [hpush]
    refine tripwire_lt _ _ hbound ?_ ?_
    · dsimp only
      simp only [ordv_Open, ordv_Push, ordv_Closing, ordv_Closed, ordv_Aborting, ordv_Aborted]
      omega
    · dsimp only
      rw [hst]
      simp only [ordv_Open, ordv_Push, ordv_Closing, ordv_Closed, ordv_Aborting, ordv_Aborted]
      omega
  · intro pb' hc
    unfold close at hc
    split at hc
    · simp at hc
    · rename_i he
      cases hc
      have hord : pb.state.ord ≤ 1 := by
        unfold PipeBuf.is_eof at he
        cases hst : pb.state <;> rw [hst] at he <;> simp_all [PBufState.ord]
      refine tripwire_lt _ _ hbound ?_ ?_ <;> dsimp only <;>
        simp only [ordv_Open, ordv_Push, ordv_Closing, ordv_Closed, ordv_Aborting, ordv_Aborted] <;> omega
  · intro pb' hc
    unfold abort at hc
    split at hc
    · simp at hc
    · rename_i he
      cases hc
      have hord : pb.state.ord ≤ 1 := by
        unfold PipeBuf.is_eof at he
        cases hst : pb.state <;> rw [hst] at he <;> simp_all [PBufState.ord]
      refine tripwire_lt _ _ hbound ?_ ?_ <;> dsimp only <;>
        simp only [ordv_Open, ordv_Push, ordv_Closing, ordv_Closed, ordv_Aborting, ordv_Aborted] <;> omega
  · intro n pb' hn hcn
    obtain ⟨hv, hle, _, hrd, hwr, hst, _, hm⟩ := consume_spec pb n pb' ⟨h1, h2, h3⟩ hcn
    refine tripwire_lt pb' pb ?_ hbound ?_
    · exact tripwire_bound pb' hv (by rw [hm]; exact hcap)
    · rw [hst, hrd, hwr]
      omega
  · intro pb' hc
    unfold consume_push at hc
    split at hc
    · rename_i hst
      cases hc
      refine tripwire_lt _ _ ?_ hbound ?_
      · dsimp only
        simp only [ordv_Open, ordv_Push, ordv_Closing, ordv_Closed, ordv_Aborting, ordv_Aborted]
        omega
      · dsimp only
        rw [hst]
        simp only [ordv_Open, ordv_Push, ordv_Closing, ordv_Closed, ordv_Aborting, ordv_Aborted]
        omega
    · simp at hc
  · intro pb' hc
    unfold consume_eof at hc
    split at hc
    · rename_i hst
      cases hc
      refine tripwire_lt _ _ ?_ hbound ?_
      · dsimp only
        simp only [ordv_Open, ordv_Push, ordv_Closing, ordv_Closed, ordv_Aborting, ordv_Aborted]
        omega
      · dsimp only
        rw [hst]
        simp only [ordv_Open, ordv_Push, ordv_Closing, ordv_Closed, ordv_Aborting, ordv_Aborted]
        omega
    · rename_i hst
      cases hc
      refine tripwire_lt _ _ ?_ hbound ?_
      · dsimp only
        simp only [ordv_Open, ordv_Push, ordv_Closing, ordv_Closed, ordv_Aborting, ordv_Aborted]
        omega
      · dsimp only
        rw [hst]
        simp only [ordv_Open, ordv_Push, ordv_Closing, ordv_Closed, ordv_Aborting, ordv_Aborted]
        omega
    · simp at hc

/-- C3 witness: `push()` from the `Open` state on a fresh growable buffer
strictly increases the tripwire value. -/
theorem c3_witness :
    (PipeBuf.new 0 4).tripwire < (push (PipeBuf.new 0 4)).tripwire :=
  (c3_tripwire_direction (PipeBuf.new 0 4) (by decide) (by decide)).2.1 rfl

theorem contents_length (pb : PipeBuf) (h : pb.Valid) :
    pb.contents.length = pb.wr - pb.rd := by
  obtain ⟨h1, h2, h3⟩ := h
  unfold PipeBuf.contents
  simp only [List.length_take, List.length_drop]
  omega

/-- C9: when the destination has not signalled EOF and has room for the whole
unread region of the source, `forward` succeeds, appends the source's unread
bytes to the destination in order, empties the source, and transfers a pending
push or EOF (preserving the close-versus-abort kind); when the destination has
already signalled EOF, `forward` changes neither buffer. -/
theorem c9_forward_moves_all (src dest d1 : PipeBuf) (hs : src.Valid)
    (hd : dest.Valid) (hde : dest.is_eof = false)
    (hsp : space dest src.contents.length = some (true, d1)) :
    (∃ s' d', forward src dest = some (s', d') ∧
      d'.contents = dest.contents ++ src.contents ∧
      s'.rd = s'.wr ∧
      (src.state = PBufState.Open →
        s'.state = PBufState.Open ∧ d'.state = dest.state) ∧
      (src.state = PBufState.Push →
        s'.state = PBufState.Open ∧ d'.state = PBufState.Push) ∧
      (src.state = PBufState.Closing →
        s'.state = PBufState.Closed ∧ d'.state = PBufState.Closing) ∧
      (src.state = PBufState.Aborting →
        s'.state = PBufState.Aborted ∧ d'.state = PBufState.Aborting)) ∧
    (∀ s d : PipeBuf, d.is_eof = true → forward s d = some (s, d)) := by
  refine ⟨?_, fun s d hd' => by unfold forward; rw [if_pos hd']⟩
  obtain ⟨hv1, hc1, hst1, hm1, hd1, hsz⟩ :=
    space_spec dest src.contents.length true d1 hd hsp
  have hw1 : d1.wr + src.contents.length ≤ d1.data.length := hsz rfl
  have he1 : d1.is_eof = false := by
    unfold PipeBuf.is_eof at hde ⊢
    rw [hst1]
    exact hde
  obtain ⟨hcm, hcc, hcl⟩ := commit_fill_spec d1 src.contents hv1 he1 hw1
  obtain ⟨hs1, hs2, hs3⟩ := hs
  have hclen : src.contents.length = src.wr - src.rd :=
    contents_length src ⟨hs1, hs2, hs3⟩
  have hcons : consume src src.contents.length =
      some { src with rd := src.rd + src.contents.length } := by
    unfold consume
    rw [if_neg (by omega)]
  have hdest01 : dest.state = PBufState.Open ∨ dest.state = PBufState.Push := by
    unfold PipeBuf.is_eof at hde
    cases hx : dest.state <;> rw [hx] at hde <;> simp_all
  have hdst : ({ d1 with data := fillAt d1.data d1.wr src.contents, wr := d1.wr + src.contents.length } : PipeBuf).state = dest.state := hst1
  have hdcc : ({ d1 with data := fillAt d1.data d1.wr src.contents, wr := d1.wr + src.contents.length } : PipeBuf).contents = dest.contents ++ src.contents := by
    rw [hcc, hc1]
  obtain ⟨s1, hcons, hs1r, hs1w, hs1st⟩ :
      ∃ s1, consume src src.contents.length = some s1 ∧
        s1.rd = src.rd + src.contents.length ∧ s1.wr = src.wr ∧
        s1.state = src.state :=
    ⟨_, hcons, rfl, rfl, rfl⟩
  obtain ⟨d3, hcm, hd3c, hd3st⟩ :
      ∃ d3, commit { d1 with data := fillAt d1.data d1.wr src.contents }
          src.contents.length = some d3 ∧
        d3.contents = dest.contents ++ src.contents ∧ d3.state = dest.state :=
    ⟨_, hcm, hdcc, hdst⟩
  have hd3eof : d3.is_eof = false := by
    unfold PipeBuf.is_eof at hde ⊢
    rw [hd3st]
    exact hde
  have hrdwr : s1.rd = s1.wr := by
    rw [hs1r, hs1w]
    omega
  unfold forward
  rw [if_neg (by simp [hde])]
  simp only [hsp, hcm, hcons]
  cases hst : src.state with
  | Open =>
    have hcp : consume_push s1 = (false, s1) := by
      unfold consume_push
      rw [if_neg (by rw [hs1st, hst]; simp)]
    have hce : consume_eof s1 = (false, s1) := by
      unfold consume_eof
      rw [hs1st, hst]
    refine ⟨s1, d3, by simp [hcp, hce], hd3c, hrdwr, ?_, ?_, ?_, ?_⟩
    · intro _
      exact ⟨by rw [hs1st, hst], hd3st⟩
    · intro hx
      cases hx
    · intro hx
      cases hx
    · intro hx
      cases hx
  | Push =>
    have hcp : consume_push s1 = (true, { s1 with state := PBufState.Open }) := by
      unfold consume_push
      rw [if_pos (by rw [hs1st, hst])]
    have hce : consume_eof ({ s1 with state := PBufState.Open } : PipeBuf) =
        (false, { s1 with state := PBufState.Open }) := rfl
    rcases hdest01 with h01 | h01
    · have hpd : push d3 = { d3 with state := PBufState.Push } := by
        unfold push
        rw [if_pos (by rw [hd3st, h01])]
      refine ⟨{ s1 with state := PBufState.Open }, { d3 with state := PBufState.Push },
        by simp [hcp, hce, hpd], hd3c, hrdwr, ?_, ?_, ?_, ?_⟩
      · intro hx
        cases hx
      · intro _
        exact ⟨rfl, rfl⟩
      · intro hx
        cases hx
      · intro hx
        cases hx
    · have hpd : push d3 = d3 := by
        unfold push
        rw [if_neg (by rw [hd3st, h01]; simp)]
      refine ⟨{ s1 with state := PBufState.Open }, d3,
        by simp [hcp, hce, hpd], hd3c, hrdwr, ?_, ?_, ?_, ?_⟩
      · intro hx
        cases hx
      · intro _
        exact ⟨rfl, by rw [hd3st, h01]⟩
      · intro hx
        cases hx
      · intro hx
        cases hx
  | Closing =>
    have hcp : consume_push s1 = (false, s1) := by
      unfold consume_push
      rw [if_neg (by rw [hs1st, hst]; simp)]
    have hce : consume_eof s1 = (true, { s1 with state := PBufState.Closed }) := by
      simp only [consume_eof, hs1st, hst]
    have hclose : close d3 = (true, { d3 with state := PBufState.Closing }) := by
      unfold close
      rw [if_neg (by simp [hd3eof])]
    refine ⟨{ s1 with state := PBufState.Closed }, { d3 with state := PBufState.Closing },
      by simp [hcp, hce, hclose, PipeBuf.is_aborted], hd3c, hrdwr, ?_, ?_, ?_, ?_⟩
    · intro hx
      cases hx
    · intro hx
      cases hx
    · intro _
      exact ⟨rfl, rfl⟩
    · intro hx
      cases hx
  | Aborting =>
    have hcp : consume_push s1 = (false, s1) := by
      unfold consume_push
      rw [if_neg (by rw [hs1st, hst]; simp)]
    have hce : consume_eof s1 = (true, { s1 with state := PBufState.Aborted }) := by
      simp only [consume_eof, hs1st, hst]
    have habort : abort d3 = (true, { d3 with state := PBufState.Aborting }) := by
      unfold abort
      rw [if_neg (by simp [hd3eof])]
    refine ⟨{ s1 with state := PBufState.Aborted }, { d3 with state := PBufState.Aborting },
      by simp [hcp, hce, habort, PipeBuf.is_aborted], hd3c, hrdwr, ?_, ?_, ?_, ?_⟩
    · intro hx
      cases hx
    · intro hx
      cases hx
    · intro hx
      cases hx
    · intro _
      exact ⟨rfl, rfl⟩
  | Closed =>
    have hcp : consume_push s1 = (false, s1) := by
      unfold consume_push
      rw [if_neg (by rw [hs1st, hst]; simp)]
    have hce : consume_eof s1 = (false, s1) := by
      unfold consume_eof
      rw [hs1st, hst]
    refine ⟨s1, d3, by simp [hcp, hce], hd3c, hrdwr, ?_, ?_, ?_, ?_⟩ <;>
      · intro hx
        cases hx
  | Aborted =>
    have hcp : consume_push s1 = (false, s1) := by
      unfold consume_push
      rw [if_neg (by rw [hs1st, hst]; simp)]
    have hce : consume_eof s1 = (false, s1) := by
      unfold consume_eof
      rw [hs1st, hst]
    refine ⟨s1, d3, by simp [hcp, hce], hd3c, hrdwr, ?_, ?_, ?_, ?_⟩ <;>
      · intro hx
        cases hx

/-- C9 witness: forwarding a closing source with two unread bytes into a
fresh fixed-capacity destination. -/
theorem c9_witness :
    (∃ s' d', forward pbSrcFwd (PipeBuf.fixed 8) = some (s', d') ∧
      d'.contents = (PipeBuf.fixed 8).contents ++ pbSrcFwd.contents ∧
      s'.rd = s'.wr ∧
      (pbSrcFwd.state = PBufState.Open →
        s'.state = PBufState.Open ∧ d'.state = (PipeBuf.fixed 8).state) ∧
      (pbSrcFwd.state = PBufState.Push →
        s'.state = PBufState.Open ∧ d'.state = PBufState.Push) ∧
      (pbSrcFwd.state = PBufState.Closing →
        s'.state = PBufState.Closed ∧ d'.state = PBufState.Closing) ∧
      (pbSrcFwd.state = PBufState.Aborting →
        s'.state = PBufState.Aborted ∧ d'.state = PBufState.Aborting)) ∧
    (∀ s d : PipeBuf, d.is_eof = true → forward s d = some (s, d)) :=
  c9_forward_moves_all pbSrcFwd (PipeBuf.fixed 8) (PipeBuf.fixed 8)
    (by decide) (by decide) (by decide) (by decide)
